import Mathlib

/-!
# Verification of the guitar-practice audio engine

A shallow embedding, over `ℚ`, of the core audio engine of the repository:
the Karplus–Strong plucked-string synthesizer (`karplus_strong/karplus_strong.rs`,
`audio_player/audio_player.rs`), the output mixer (`audio/audio_player.rs`),
the chroma feature matcher (`audio/audio_listener.rs`,
`audio_listener/audio_listener.rs`), the scheduler (`time_scrubber/time_scrubber.rs`
and its spec-described successor), and the GUI playback state (`gui/gui.rs`).

`f32` arithmetic is modelled by exact rational arithmetic.  The transcendental
`f32` primitives that the code calls (`sin`, `log2`, `2^x`, `sqrt`, the FFT) are
taken as explicit function parameters (`sin2pi`, `log2q`, `pow2q`, `sqrtq`,
`computeChroma`): every theorem quantifies over them, adding hypotheses only
where a concrete value of the primitive matters.  `random::<f32>()` draws are
modelled by a noise sequence `noise : ℕ → ℚ`.  The saturating `as usize` cast of
a nonnegative `f32` truncates, which is modelled by `Int.toNat ∘ Int.floor`
(resp. `Int.ceil` when the code rounds up first); for negative inputs both the
cast and the model give `0`.
-/

/-- Timbre parameters of a guitar voice: `GuitarConfig` from `guitar/guitar.rs`
(the variant with a `volume` field, used by `audio/audio_player.rs`). -/
structure GuitarConfig where
  decay : ℚ
  string_damping : ℚ
  body_resonance : ℚ
  body_damping : ℚ
  string_tension : ℚ
  scale_length : ℚ
  capo_fret : ℕ
  volume : ℚ
deriving DecidableEq

/-- `GuitarConfig::acoustic()` from `guitar/guitar.rs`. -/
def GuitarConfig.acoustic : GuitarConfig :=
  { decay := 995/1000
    string_damping := 4/10
    body_resonance := 150
    body_damping := 2/10
    string_tension := 8/10
    scale_length := 51/2
    capo_fret := 0
    volume := 5/10 }

/-- State of one plucked-string voice: `KarplusStrong` from
`karplus_strong/karplus_strong.rs` (the `audio_player/audio_player.rs` copy has
the same `buffer`/`position`/`remaining_samples` fields and receives the config
and sample rate per call instead of storing them). -/
structure KarplusStrong where
  buffer : List ℚ
  position : ℕ
  remaining_samples : ℕ
  config : GuitarConfig
  sample_rate : ℚ
deriving DecidableEq

/-- The delay-line seeding loop of `KarplusStrong::new`: one pass of
`filtered = string_damping*prev + (1-string_damping)*(string_tension*white)`
with `white = random::<f32>()*2 - 1`; `noise k` stands for the k-th draw of
`random::<f32>()`. -/
def seedBuffer (noise : ℕ → ℚ) (config : GuitarConfig) : ℕ → ℕ → ℚ → List ℚ
  | 0, _, _ => []
  | n + 1, k, prev =>
    let white := noise k * 2 - 1
    let tension_effect := config.string_tension * white
    let filtered := config.string_damping * prev + (1 - config.string_damping) * tension_effect
    filtered :: seedBuffer noise config n (k + 1) filtered

/-- `KarplusStrong::new(frequency, duration_seconds, sample_rate, config)`:
`buffer_length = (sample_rate / frequency).ceil() as usize`,
`remaining_samples = (duration_seconds * sample_rate) as usize`. -/
def KarplusStrong.new (noise : ℕ → ℚ) (frequency duration_seconds sample_rate : ℚ)
    (config : GuitarConfig) : KarplusStrong :=
  let buffer_length := (⌈sample_rate / frequency⌉).toNat
  { buffer := seedBuffer noise config buffer_length 0 0
    position := 0
    remaining_samples := (⌊duration_seconds * sample_rate⌋).toNat
    config := config
    sample_rate := sample_rate }

/-- `KarplusStrong::next_sample(&mut self, config, sample_rate)` from
`audio_player/audio_player.rs` (the `karplus_strong/karplus_strong.rs` copy is
the same formula reading `self.config` and `self.sample_rate`).  `sin2pi x`
stands for the `f32` computation `(2.0 * PI * x).sin()`, so the source's
`body_freq.sin()` with `body_freq = 2π·body_resonance/sample_rate` is
`sin2pi (body_resonance / sample_rate)`.  Out-of-range list reads are
totalized with `getD`; the in-bounds theorems below show the defaults are
never consulted for well-formed states. -/
def KarplusStrong.nextSampleWith (sin2pi : ℚ → ℚ) (ks : KarplusStrong)
    (config : GuitarConfig) (sample_rate : ℚ) : Option (ℚ × KarplusStrong) :=
  if ks.remaining_samples = 0 then none
  else
    let current_value := ks.buffer.getD ks.position 0
    let next_index := (ks.position + 1) % ks.buffer.length
    let next_value := ks.buffer.getD next_index 0
    let string_sample := config.decay *
      (config.string_damping * current_value + (1 - config.string_damping) * next_value)
    let resonated := string_sample * sin2pi (config.body_resonance / sample_rate)
    let body_sample := resonated * (1 - config.body_damping)
    some (string_sample * (7/10) + body_sample * (3/10),
      { ks with
        buffer := ks.buffer.set ks.position string_sample
        position := next_index
        remaining_samples := ks.remaining_samples - 1 })

/-- `KarplusStrong::next_sample(&mut self)` from `karplus_strong/karplus_strong.rs`:
the same step using the stored config and sample rate. -/
def KarplusStrong.nextSample (sin2pi : ℚ → ℚ) (ks : KarplusStrong) :
    Option (ℚ × KarplusStrong) :=
  ks.nextSampleWith sin2pi ks.config ks.sample_rate

theorem nextSampleWith_none_iff (sin2pi : ℚ → ℚ) (ks : KarplusStrong)
    (config : GuitarConfig) (sample_rate : ℚ) :
    ks.nextSampleWith sin2pi config sample_rate = none ↔ ks.remaining_samples = 0 := by
  unfold KarplusStrong.nextSampleWith
  split <;> simp_all

theorem nextSampleWith_remaining {sin2pi : ℚ → ℚ} {ks ks' : KarplusStrong}
    {config : GuitarConfig} {sample_rate : ℚ} {s : ℚ}
    (h : ks.nextSampleWith sin2pi config sample_rate = some (s, ks')) :
    ks.remaining_samples ≠ 0 ∧ ks'.remaining_samples = ks.remaining_samples - 1 := by
  unfold KarplusStrong.nextSampleWith at h
  split at h
  · exact absurd h (by simp)
  · refine ⟨by assumption, ?_⟩
    simp only [Option.some.injEq, Prod.mk.injEq] at h
    cases h.2
    rfl

theorem nextSample_remaining_lt {sin2pi : ℚ → ℚ} {ks ks' : KarplusStrong} {s : ℚ}
    (h : ks.nextSample sin2pi = some (s, ks')) :
    ks'.remaining_samples < ks.remaining_samples := by
  obtain ⟨hne, heq⟩ := nextSampleWith_remaining h
  omega

/-- `KarplusStrong::generate_audio_data(&mut self)`: drains `next_sample` into a
buffer. -/
def KarplusStrong.generateAudioData (sin2pi : ℚ → ℚ) (ks : KarplusStrong) : List ℚ :=
  match h : ks.nextSample sin2pi with
  | none => []
  | some (s, ks') => s :: ks'.generateAudioData sin2pi
termination_by ks.remaining_samples
decreasing_by exact nextSample_remaining_lt h

theorem generateAudioData_length (sin2pi : ℚ → ℚ) (ks : KarplusStrong) :
    (ks.generateAudioData sin2pi).length = ks.remaining_samples := by
  have H : ∀ (n : ℕ) (ks : KarplusStrong), ks.remaining_samples = n →
      (ks.generateAudioData sin2pi).length = ks.remaining_samples := by
    intro n
    induction n using Nat.strong_induction_on with
    | _ n ih =>
      intro ks hn
      unfold KarplusStrong.generateAudioData
      split
      · next h =>
        have h0 := (nextSampleWith_none_iff sin2pi ks ks.config ks.sample_rate).mp h
        simp [h0]
      · next s ks' h =>
        obtain ⟨hne, heq⟩ := nextSampleWith_remaining h
        have hlt : ks'.remaining_samples < n := by omega
        simp only [List.length_cons, ih ks'.remaining_samples hlt ks' rfl]
        omega
  exact H ks.remaining_samples ks rfl

theorem seedBuffer_length (noise : ℕ → ℚ) (config : GuitarConfig) :
    ∀ (n k : ℕ) (prev : ℚ), (seedBuffer noise config n k prev).length = n := by
  intro n
  induction n with
  | zero => intro k prev; rfl
  | succ m ih => intro k prev; simp [seedBuffer, ih]

/-- Rust `f32::clamp(lo, hi)`: `lo` if below, `hi` if above, the value otherwise. -/
def clampQ (x lo hi : ℚ) : ℚ := if x < lo then lo else if x > hi then hi else x

theorem clampQ_mem_Icc (x lo hi : ℚ) (h : lo ≤ hi) :
    lo ≤ clampQ x lo hi ∧ clampQ x lo hi ≤ hi := by
  unfold clampQ
  split
  · exact ⟨le_refl lo, h⟩
  · split
    · exact ⟨h, le_refl hi⟩
    · constructor <;> linarith

/-- The `active_notes.retain_mut(...)` pass inside `AudioPlayer::write_data`
(`audio/audio_player.rs`): each voice is stepped with `next_sample`; a voice
returning `Some(sample)` adds its sample to the running value and is kept
(with its mutated state), a voice returning `None` is removed.  Returns the
summed value and the retained voices. -/
def retainMix (sin2pi : ℚ → ℚ) (configs : GuitarConfig) (sample_rate : ℚ) :
    List KarplusStrong → ℚ × List KarplusStrong
  | [] => (0, [])
  | note :: rest =>
    match note.nextSampleWith sin2pi configs sample_rate with
    | some (sample, note') =>
      let r := retainMix sin2pi configs sample_rate rest
      (sample + r.1, note' :: r.2)
    | none => retainMix sin2pi configs sample_rate rest

/-- The per-frame loop of `AudioPlayer::write_data` (`audio/audio_player.rs`)
over `frames` output frames of `channels` samples each: mix the active voices,
apply `configs.volume`, clamp to `[-1, 1]`, and write the value to every
channel of the frame.  Returns the written frames and the voices still active
when the callback returns. -/
def writeData (sin2pi : ℚ → ℚ) (configs : GuitarConfig) (sample_rate : ℚ)
    (channels : ℕ) : ℕ → List KarplusStrong → List (List ℚ) × List KarplusStrong
  | 0, active_notes => ([], active_notes)
  | frames + 1, active_notes =>
    let m := retainMix sin2pi configs sample_rate active_notes
    let value := clampQ (m.1 * configs.volume) (-1) 1
    let rest := writeData sin2pi configs sample_rate channels frames m.2
    (List.replicate channels value :: rest.1, rest.2)

theorem retainMix_fst (sin2pi : ℚ → ℚ) (configs : GuitarConfig) (sample_rate : ℚ)
    (voices : List KarplusStrong) :
    (retainMix sin2pi configs sample_rate voices).1 =
      (voices.filterMap
        (fun v => (v.nextSampleWith sin2pi configs sample_rate).map Prod.fst)).sum := by
  induction voices with
  | nil => rfl
  | cons v rest ih =>
    simp only [retainMix, List.filterMap_cons]
    cases h : v.nextSampleWith sin2pi configs sample_rate with
    | none => simpa using ih
    | some p => cases p; simp [ih]

theorem retainMix_snd (sin2pi : ℚ → ℚ) (configs : GuitarConfig) (sample_rate : ℚ)
    (voices : List KarplusStrong) :
    (retainMix sin2pi configs sample_rate voices).2 =
      voices.filterMap
        (fun v => (v.nextSampleWith sin2pi configs sample_rate).map Prod.snd) := by
  induction voices with
  | nil => rfl
  | cons v rest ih =>
    simp only [retainMix, List.filterMap_cons]
    cases h : v.nextSampleWith sin2pi configs sample_rate with
    | none => simpa using ih
    | some p => cases p; simp [ih]

theorem writeData_frames_shape (sin2pi : ℚ → ℚ) (configs : GuitarConfig)
    (sample_rate : ℚ) (channels frames : ℕ) (voices : List KarplusStrong) :
    ∀ frame ∈ (writeData sin2pi configs sample_rate channels frames voices).1,
      ∃ vs : List KarplusStrong,
        frame = List.replicate channels
          (clampQ ((retainMix sin2pi configs sample_rate vs).1 * configs.volume) (-1) 1) := by
  induction frames generalizing voices with
  | zero => intro frame hf; exact absurd hf (by simp [writeData])
  | succ n ih =>
    intro frame hf
    simp only [writeData, List.mem_cons] at hf
    rcases hf with hf | hf
    · exact ⟨voices, hf⟩
    · exact ih _ frame hf

/-- Playing technique of a note: `Technique` from `music_representation`
(the variant set matched by `musicxml_parser.rs` and `gui/gui.rs`). -/
inductive Technique where
  | HammerOn
  | PullOff
  | Slide
  | Bend
  | NoTechnique
deriving DecidableEq

/-- `Pitch` from `music_representation`. -/
structure Pitch where
  step : Char
  alter : Option ℤ
  octave : ℕ
deriving DecidableEq

/-- `Note` from `music_representation` (the field set built by
`musicxml_parser.rs::parse_note` and consumed by the audio components). -/
structure Note where
  string : Option ℕ
  fret : Option ℕ
  duration : ℕ
  pitch : Option Pitch
  technique : Technique
deriving DecidableEq

/-- Modelled from the spec: `seconds_per_division = (60 / tempo) /
divisions_per_quarter` (§4.3).  The `TimeScrubber` constructor that computes it
from a tempo override is absent from `src` — only its callers in `gui/gui.rs`
and its tests in `time_scrubber_tests.rs` are present. -/
def secondsPerDivisionOf (tempo divisions_per_quarter : ℚ) : ℚ :=
  60 / tempo / divisions_per_quarter

/-- Modelled from the spec: `total_duration = measures.len() *
divisions_per_measure * seconds_per_division` (§4.3); the same formula appears
in the older `TimeScrubber::new` in `time_scrubber/time_scrubber.rs`. -/
def totalDurationOf (measures_len divisions_per_measure : ℕ)
    (seconds_per_division : ℚ) : ℚ :=
  measures_len * divisions_per_measure * seconds_per_division

/-- Modelled from the spec: `TimeScrubber::calculate_current_time` — absent
from `src`, exercised by `time_scrubber_tests.rs` —
`total_divisions_elapsed = floor(elapsed / seconds_per_division)`,
`current_measure = total_divisions_elapsed / divisions_per_measure`,
`current_division = total_divisions_elapsed % divisions_per_measure` (§4.3). -/
def calculateCurrentTime (seconds_per_division elapsed : ℚ)
    (divisions_per_measure : ℕ) : ℕ × ℕ :=
  let total_divisions_elapsed := (⌊elapsed / seconds_per_division⌋).toNat
  (total_divisions_elapsed / divisions_per_measure,
   total_divisions_elapsed % divisions_per_measure)

/-- Modelled from the spec: the tick's stopping test of the scheduler — absent
from `src` — `if elapsed >= total_duration or current_measure >=
measures.len(), stop` (§4.3). -/
def playbackStopped (elapsed total_duration : ℚ)
    (current_measure measures_len : ℕ) : Bool :=
  decide (elapsed ≥ total_duration) || decide (current_measure ≥ measures_len)

/-- `TimeScrubber` from `time_scrubber/time_scrubber.rs`, with `Instant` and
`Duration` modelled as rational time stamps. -/
structure TimeScrubber where
  start_time : Option ℚ
  total_duration : Option ℚ
  elapsed_since_start : ℚ
deriving DecidableEq

/-- `TimeScrubber::new(score)`: `total_duration = measures.len() *
seconds_per_division * divisions_per_measure`, no start time, zero
accumulated elapsed time. -/
def TimeScrubber.new (measures_len : ℕ) (seconds_per_division : ℚ)
    (divisions_per_measure : ℕ) : TimeScrubber :=
  { start_time := none
    total_duration :=
      some (measures_len * seconds_per_division * divisions_per_measure)
    elapsed_since_start := 0 }

/-- `TimeScrubber::start`, with `Instant::now()` passed in as `now`. -/
def TimeScrubber.start (ts : TimeScrubber) (now : ℚ) : TimeScrubber :=
  if ts.start_time.isNone && ts.total_duration.isSome then
    { ts with start_time := some now }
  else ts

/-- `TimeScrubber::stop`, with the current instant passed in as `now`
(`start.elapsed()` becomes `now - start`). -/
def TimeScrubber.stop (ts : TimeScrubber) (now : ℚ) : TimeScrubber :=
  match ts.start_time with
  | some start =>
    { ts with
      elapsed_since_start := ts.elapsed_since_start + (now - start)
      start_time := none }
  | none => ts

/-- `TimeScrubber::elapsed`, with the current instant passed in as `now`. -/
def TimeScrubber.elapsed (ts : TimeScrubber) (now : ℚ) : ℚ :=
  match ts.start_time with
  | some start => ts.elapsed_since_start + (now - start)
  | none => ts.elapsed_since_start

/-- The playback-related fields of `TabApp` (`gui/gui.rs`): the playing flag,
the atomic stop flag, the UI's current/previous note sets and match flag, and
the contents of the `expected_notes` mutex shared with the audio listener. -/
structure TabAppState where
  is_playing : Bool
  stop_flag : Bool
  current_notes : Option (List Note)
  previous_notes : Option (List Note)
  is_match : Bool
  expected_notes : Option (List Note)
deriving DecidableEq

/-- `TabApp::stop_playback` (`gui/gui.rs`): when playing, raise the stop flag,
join the playback thread (the join itself has no state effect here), clear
`is_playing`, `current_notes`, `previous_notes` and `is_match`.  No other
field is touched. -/
def stopPlayback (s : TabAppState) : TabAppState :=
  if s.is_playing then
    { s with
      stop_flag := true
      is_playing := false
      current_notes := none
      previous_notes := none
      is_match := false }
  else s

/-- `CHROMA_BINS` from `audio/audio_listener.rs`. -/
def CHROMA_BINS : ℕ := 12

/-- `SILENCE_THRESHOLD` from `audio/audio_listener.rs`. -/
def SILENCE_THRESHOLD : ℚ := 1/100

/-- The `max_amplitude` computation of `normalize_signal_per_frame`
(`audio/audio_listener.rs`): `signal.iter().map(|x| x.abs()).fold(0.0, f32::max)`. -/
def maxAmplitude (signal : List ℚ) : ℚ :=
  (signal.map (fun x => |x|)).foldl max 0

/-- `normalize_signal_per_frame` from `audio/audio_listener.rs`: divide by the
frame's own maximum absolute amplitude, or return an all-zero vector of the
same length when that maximum is zero. -/
def normalizeSignalPerFrame (signal : List ℚ) : List ℚ :=
  let max_amplitude := maxAmplitude signal
  if max_amplitude = 0 then List.replicate signal.length 0
  else signal.map (fun x => x / max_amplitude)

/-- The `rms_energy` computation of `process_audio_input`
(`audio/audio_listener.rs`): `signal.iter().map(|x| x * x).sum() / len`. -/
def rmsEnergy (signal : List ℚ) : ℚ :=
  (signal.map (fun x => x * x)).sum / signal.length

/-- `freq_to_midi` from `audio/audio_listener.rs`:
`(69.0 + 12.0 * (freq / 440.0).log2()).round() as u8`.  `log2q` stands for
`f32::log2`; the saturating `as u8` cast is `Int.toNat` capped at 255. -/
def freqToMidi (log2q : ℚ → ℚ) (freq : ℚ) : ℕ :=
  min ((round (69 + 12 * log2q (freq / 440))).toNat) 255

/-- Modelled from the spec: the standard-tuning open-string frequency table of
the absent `calculate_frequency` (§4.2: "open-string frequency table"; string 1
is the high E at ≈329.63 Hz, per the §8 test case). -/
def openStringFrequency : ℕ → ℚ
  | 1 => 32963/100
  | 2 => 24694/100
  | 3 => 19600/100
  | 4 => 14683/100
  | 5 => 11000/100
  | 6 => 8241/100
  | _ => 0

/-- Modelled from the spec: `calculate_frequency(note, scale_length,
capo_fret)` — its definition is absent from `src`; only its callers in
`audio/audio_player.rs` and `audio/audio_listener.rs` remain — computes
"open-string frequency table × 2^((fret+capo)/12), scaled by
scale_length_ratio" (§4.2), the ratio being relative to the 25.5 reference
scale.  `pow2q` stands for the `f32` computation `x ↦ 2^x`. -/
def calculateFrequency (pow2q : ℚ → ℚ) (note : Note) (scale_length : ℚ)
    (capo_fret : ℕ) : ℚ :=
  openStringFrequency (note.string.getD 0) *
    pow2q ((((note.fret.getD 0 : ℕ) : ℚ) + (capo_fret : ℚ)) / 12) *
    ((51/2) / scale_length)

/-- The accumulation loop of `generate_expected_chroma`
(`audio/audio_listener.rs`): for each note carrying both a string and a fret,
`chroma[pitch_class] += 1.0` where `pitch_class = freq_to_midi(
calculate_frequency(note, 25.5, 0)) % 12`. -/
def accumulateChroma (log2q pow2q : ℚ → ℚ) : List Note → List ℚ → List ℚ
  | [], chroma => chroma
  | note :: rest, chroma =>
    match note.string, note.fret with
    | some _, some _ =>
      let frequency := calculateFrequency pow2q note (51/2) 0
      let midi := freqToMidi log2q frequency
      let pitch_class := midi % 12
      accumulateChroma log2q pow2q rest
        (chroma.set pitch_class (chroma.getD pitch_class 0 + 1))
    | _, _ => accumulateChroma log2q pow2q rest chroma

/-- `generate_expected_chroma` from `audio/audio_listener.rs`: accumulate one
unit of energy per fretted expected note into a 12-bin chroma vector, then
divide by the total when it is positive. -/
def generateExpectedChroma (log2q pow2q : ℚ → ℚ)
    (expected_notes : Option (List Note)) : List ℚ :=
  let chroma0 : List ℚ := List.replicate CHROMA_BINS 0
  let chroma := match expected_notes with
    | some notes => accumulateChroma log2q pow2q notes chroma0
    | none => chroma0
  let sum := chroma.sum
  if sum > 0 then chroma.map (fun c => c / sum) else chroma

/-- `identify_peaks_expected` from `audio/audio_listener.rs`: the set of
indices whose expected energy is positive. -/
def identifyPeaksExpected (chroma : List ℚ) : Finset ℕ :=
  (chroma.enum.filterMap
    (fun iv => if iv.2 > 0 then some iv.1 else none)).toFinset

/-- `identify_peaks_input` from `audio/audio_listener.rs`: enumerate the
indices and values, stably sort by value descending (Rust's `sort_by` with
`b.partial_cmp(&a)` is stable, as is `List.mergeSort`), and keep the first
`num_peaks` indices. -/
def identifyPeaksInput (chroma : List ℚ) (num_peaks : ℕ) : Finset ℕ :=
  let indices_and_values := chroma.enum
  let sorted := indices_and_values.mergeSort (fun a b => decide (b.2 ≤ a.2))
  ((sorted.take num_peaks).map Prod.fst).toFinset

/-- `compare_chroma_peaks` from `audio/audio_listener.rs`. -/
def compareChromaPeaks (input_chroma expected_chroma : List ℚ) : Bool :=
  let expected_peaks := identifyPeaksExpected expected_chroma
  let num_expected_peaks := expected_peaks.card
  let input_peaks := identifyPeaksInput input_chroma num_expected_peaks
  decide (expected_peaks ⊆ input_peaks)

/-- One iteration of the frame loop of `process_audio_input`
(`audio/audio_listener.rs`) for a single extracted frame: skip when no
expected notes are published; otherwise build the expected chroma, normalize
the frame, and when its `rms_energy` clears `SILENCE_THRESHOLD` send the
`compare_chroma_peaks` verdict.  Returns the value sent on the match-result
channel for this frame, or `none` when the frame is skipped.  The FFT-based
`compute_chroma_features` is abstracted as the parameter `computeChroma`
(standing for `compute_chroma_features(·, sample_rate)`); the history
book-keeping has no effect on the emitted result and is omitted. -/
def processFrame (log2q pow2q : ℚ → ℚ) (computeChroma : List ℚ → List ℚ)
    (input_signal : List ℚ) (expected_notes : Option (List Note)) : Option Bool :=
  match expected_notes with
  | none => none
  | some _ =>
    let expected_chroma := generateExpectedChroma log2q pow2q expected_notes
    let normalized_input_signal := normalizeSignalPerFrame input_signal
    let rms_energy := rmsEnergy normalized_input_signal
    if rms_energy < SILENCE_THRESHOLD then none
    else
      let input_chroma := computeChroma normalized_input_signal
      some (compareChromaPeaks input_chroma expected_chroma)

/-- `compute_cosine_similarity` from `audio_listener/audio_listener.rs`:
`dot/(|a|·|b|)` when both magnitudes are positive, `0.0` otherwise.  `sqrtq`
stands for `f32::sqrt`. -/
def computeCosineSimilarity (sqrtq : ℚ → ℚ) (a b : List ℚ) : ℚ :=
  let dot_product := ((a.zip b).map (fun xy => xy.1 * xy.2)).sum
  let magnitude_a := sqrtq ((a.map (fun x => x * x)).sum)
  let magnitude_b := sqrtq ((b.map (fun y => y * y)).sum)
  if magnitude_a > 0 ∧ magnitude_b > 0 then dot_product / (magnitude_a * magnitude_b)
  else 0

theorem le_foldl_max (a : ℚ) (l : List ℚ) : a ≤ l.foldl max a := by
  induction l generalizing a with
  | nil => exact le_refl a
  | cons x xs ih => exact le_trans (le_max_left a x) (ih (max a x))

theorem foldl_max_le {c : ℚ} (l : List ℚ) (a : ℚ) (ha : a ≤ c)
    (h : ∀ x ∈ l, x ≤ c) : l.foldl max a ≤ c := by
  induction l generalizing a with
  | nil => exact ha
  | cons x xs ih =>
    exact ih (max a x) (max_le ha (h x (List.mem_cons_self x xs)))
      (fun y hy => h y (List.mem_cons_of_mem x hy))

theorem mem_le_foldl_max {x : ℚ} {l : List ℚ} (hx : x ∈ l) (a : ℚ) :
    x ≤ l.foldl max a := by
  induction l generalizing a with
  | nil => exact absurd hx (List.not_mem_nil x)
  | cons y ys ih =>
    show x ≤ List.foldl max (max a y) ys
    rcases List.mem_cons.mp hx with h | h
    · subst h
      exact le_trans (le_max_right a x) (le_foldl_max (max a x) ys)
    · exact ih h (max a y)

theorem foldl_max_eq_or_mem (l : List ℚ) (a : ℚ) :
    l.foldl max a = a ∨ l.foldl max a ∈ l := by
  induction l generalizing a with
  | nil => exact Or.inl rfl
  | cons x xs ih =>
    show List.foldl max (max a x) xs = a ∨ List.foldl max (max a x) xs ∈ x :: xs
    rcases ih (max a x) with h | h
    · rcases max_cases a x with ⟨hm, _⟩ | ⟨hm, _⟩
      · exact Or.inl (by rw [h, hm])
      · exact Or.inr (by rw [h, hm]; exact List.mem_cons_self x xs)
    · exact Or.inr (List.mem_cons_of_mem x h)

theorem maxAmplitude_nonneg (s : List ℚ) : 0 ≤ maxAmplitude s :=
  le_foldl_max 0 _

theorem abs_le_maxAmplitude {x : ℚ} {s : List ℚ} (hx : x ∈ s) :
    |x| ≤ maxAmplitude s :=
  mem_le_foldl_max (List.mem_map_of_mem (fun y => |y|) hx) 0

theorem maxAmplitude_attained {s : List ℚ} (h : maxAmplitude s ≠ 0) :
    ∃ x ∈ s, |x| = maxAmplitude s := by
  rcases foldl_max_eq_or_mem (s.map (fun y => |y|)) 0 with h0 | hmem
  · exact absurd h0 h
  · rcases List.mem_map.mp hmem with ⟨x, hx, hxe⟩
    exact ⟨x, hx, hxe⟩

/-- C1: the scheduler derives the playback position arithmetically:
`total_divisions_elapsed = floor(elapsed / seconds_per_division)`,
`current_measure = total_divisions_elapsed / divisions_per_measure`,
`current_division = total_divisions_elapsed % divisions_per_measure`; elapsed 0
gives position (0,0), an elapsed time of exactly one measure gives (1,0), and
the tick stops exactly when `elapsed ≥ total_duration` or `current_measure ≥
measures.len()`. -/
theorem c1_scheduler_position (spd : ℚ) (dpm mlen : ℕ)
    (hspd : 0 < spd) (hdpm : 0 < dpm) :
    (∀ elapsed : ℚ, calculateCurrentTime spd elapsed dpm =
        ((⌊elapsed / spd⌋).toNat / dpm, (⌊elapsed / spd⌋).toNat % dpm)) ∧
    calculateCurrentTime spd 0 dpm = (0, 0) ∧
    calculateCurrentTime spd (spd * dpm) dpm = (1, 0) ∧
    (∀ (elapsed total_duration : ℚ) (current_measure : ℕ),
        playbackStopped elapsed total_duration current_measure mlen = true ↔
          (elapsed ≥ total_duration ∨ current_measure ≥ mlen)) := by
  refine ⟨fun _ => rfl, ?_, ?_, ?_⟩
  · simp [calculateCurrentTime]
  · have hne : spd ≠ 0 := ne_of_gt hspd
    have hdiv : spd * (dpm : ℚ) / spd = (dpm : ℚ) := by
      field_simp
    simp only [calculateCurrentTime, hdiv, Int.floor_natCast, Int.toNat_natCast]
    rw [Nat.div_self hdpm, Nat.mod_self]
  · intro elapsed total_duration current_measure
    simp [playbackStopped]

/-- C1 witness: the spec's own instance: `tempo = 120`,
`divisions_per_quarter = 2` gives `seconds_per_division = 1/4`; with
`divisions_per_measure = 8` elapsed 0 maps to (0,0) and elapsed 2 (one
measure) maps to (1,0). -/
theorem c1_scheduler_position_witness :
    secondsPerDivisionOf 120 2 = 1/4 ∧
    calculateCurrentTime (1/4) 0 8 = (0, 0) ∧
    calculateCurrentTime (1/4) ((1/4) * (8 : ℕ)) 8 = (1, 0) := by
  refine ⟨by norm_num [secondsPerDivisionOf], ?_, ?_⟩
  · exact (c1_scheduler_position (1/4) 8 4 (by norm_num) (by norm_num)).2.1
  · exact (c1_scheduler_position (1/4) 8 4 (by norm_num) (by norm_num)).2.2.1

/-- Concrete open high-E note (string 1, fret 0) used at concrete inputs. -/
def noteE : Note :=
  { string := some 1, fret := some 0, duration := 1, pitch := none,
    technique := Technique.NoTechnique }

/-- C7 counterexample: stopping playback from a playing state whose shared
expected-notes set holds the open high-E note leaves that set untouched
(`TabApp::stop_playback` never writes `expected_notes`), refuting the
claim that stopping clears the expected-notes state. -/
theorem c7_counterexample :
    (stopPlayback
      { is_playing := true, stop_flag := false, current_notes := some [noteE],
        previous_notes := some [noteE], is_match := true,
        expected_notes := some [noteE] }).is_playing = false ∧
    (stopPlayback
      { is_playing := true, stop_flag := false, current_notes := some [noteE],
        previous_notes := some [noteE], is_match := true,
        expected_notes := some [noteE] }).expected_notes = some [noteE] := by
  exact ⟨rfl, rfl⟩

/-- C7 (amended): stopping playback clears the playing flag, the UI's
current/previous note sets and the match flag, but leaves the shared
expected-notes set unchanged (it is only overwritten when the next playback
publishes notes); the playback position is nonetheless discarded because every
`start_playback` constructs a fresh `TimeScrubber`, whose elapsed time right
after `start()` is zero, so the next playback begins at measure 0,
division 0. -/
theorem c7_stop_playback_amended (s : TabAppState) (h : s.is_playing = true) :
    (stopPlayback s).is_playing = false ∧
    (stopPlayback s).current_notes = none ∧
    (stopPlayback s).previous_notes = none ∧
    (stopPlayback s).is_match = false ∧
    (stopPlayback s).expected_notes = s.expected_notes ∧
    (∀ (mlen dpm : ℕ) (spd now : ℚ), 0 < spd → 0 < dpm →
      ((TimeScrubber.new mlen spd dpm).start now).elapsed now = 0 ∧
      calculateCurrentTime spd
        (((TimeScrubber.new mlen spd dpm).start now).elapsed now) dpm = (0, 0)) := by
  refine ⟨?_, ?_, ?_, ?_, ?_, ?_⟩
  · simp [stopPlayback, h]
  · simp [stopPlayback, h]
  · simp [stopPlayback, h]
  · simp [stopPlayback, h]
  · simp [stopPlayback, h]
  · intro mlen dpm spd now hspd hdpm
    have helapsed : ((TimeScrubber.new mlen spd dpm).start now).elapsed now = 0 := by
      simp [TimeScrubber.new, TimeScrubber.start, TimeScrubber.elapsed]
    refine ⟨helapsed, ?_⟩
    rw [helapsed]
    simp [calculateCurrentTime]

/-- C7 witness: the amended theorem applied to a concrete playing state. -/
theorem c7_stop_playback_amended_witness :
    (stopPlayback
      { is_playing := true, stop_flag := false, current_notes := some [noteE],
        previous_notes := none, is_match := true,
        expected_notes := some [noteE] }).current_notes = none :=
  (c7_stop_playback_amended
    { is_playing := true, stop_flag := false, current_notes := some [noteE],
      previous_notes := none, is_match := true,
      expected_notes := some [noteE] } rfl).2.1

/-- C4: for every frequency `f > 0` and sample rate `sr > 0`,
`KarplusStrong::new` allocates a delay line of length exactly `ceil(sr/f)`. -/
theorem c4_delay_line_length (noise : ℕ → ℚ) (f d sr : ℚ) (config : GuitarConfig)
    (hf : 0 < f) (hsr : 0 < sr) :
    ((KarplusStrong.new noise f d sr config).buffer.length : ℤ) = ⌈sr / f⌉ := by
  have hpos : (0 : ℚ) < sr / f := div_pos hsr hf
  have hceil : (0 : ℤ) < ⌈sr / f⌉ := Int.ceil_pos.mpr hpos
  show (((seedBuffer noise config (⌈sr / f⌉).toNat 0 0).length : ℤ)) = ⌈sr / f⌉
  rw [seedBuffer_length]
  exact Int.toNat_of_nonneg (le_of_lt hceil)

/-- C4 witness: a 5 Hz-per-2-sample voice gets a delay line of length
`ceil(5/2) = 3`. -/
theorem c4_delay_line_length_witness :
    (0 : ℚ) < 2 ∧ (0 : ℚ) < 5 ∧
    ((KarplusStrong.new (fun _ => 0) 2 1 5 GuitarConfig.acoustic).buffer.length : ℤ) =
      ⌈(5 : ℚ) / 2⌉ :=
  ⟨by norm_num, by norm_num,
    c4_delay_line_length (fun _ => 0) 2 1 5 GuitarConfig.acoustic
      (by norm_num) (by norm_num)⟩

/-- C5 counterexample: a voice of duration 1.5 s at 1 Hz sample rate gets
`remaining_samples = (1.5 * 1.0) as usize = 1`, while the claimed
`round(duration * sample_rate)` is `2`: the cast truncates instead of
rounding. -/
theorem c5_counterexample :
    (KarplusStrong.new (fun _ => 0) 1 (3/2) 1 GuitarConfig.acoustic).remaining_samples = 1 ∧
    round ((3/2 : ℚ) * 1) = 2 := by
  constructor
  · show (⌊(3/2 : ℚ) * 1⌋).toNat = 1
    norm_num
  · norm_num [round_eq]

/-- C5 (amended): for duration `d ≥ 0` and sample rate `sr > 0` (and `f > 0`
so the voice is well formed), a fresh voice has `remaining_samples =
floor(d * sr)` — the `as usize` cast truncates — and `generate_audio_data`
on a fresh voice returns exactly that many samples. -/
theorem c5_remaining_samples_amended (noise : ℕ → ℚ) (sin2pi : ℚ → ℚ)
    (f d sr : ℚ) (config : GuitarConfig)
    (hf : 0 < f) (hsr : 0 < sr) (hd : 0 ≤ d) :
    (KarplusStrong.new noise f d sr config).remaining_samples = (⌊d * sr⌋).toNat ∧
    ((KarplusStrong.new noise f d sr config).generateAudioData sin2pi).length =
      (⌊d * sr⌋).toNat := by
  refine ⟨rfl, ?_⟩
  rw [generateAudioData_length]
  rfl

/-- C5 witness: the amended theorem at `f = 1`, `d = 3/2`, `sr = 1`. -/
theorem c5_remaining_samples_amended_witness :
    (0 : ℚ) < 1 ∧ (0 : ℚ) ≤ 3/2 ∧
    (KarplusStrong.new (fun _ => 0) 1 (3/2) 1 GuitarConfig.acoustic).remaining_samples =
      (⌊(3/2 : ℚ) * 1⌋).toNat :=
  ⟨by norm_num, by norm_num,
    (c5_remaining_samples_amended (fun _ => 0) (fun _ => 0) 1 (3/2) 1
      GuitarConfig.acoustic (by norm_num) (by norm_num) (by norm_num)).1⟩

theorem nextSampleWith_some_of_remaining {sin2pi : ℚ → ℚ} (ks : KarplusStrong)
    (config : GuitarConfig) (sample_rate : ℚ) (h : ks.remaining_samples ≠ 0) :
    ∃ s ks', ks.nextSampleWith sin2pi config sample_rate = some (s, ks') ∧
      ks'.buffer.length = ks.buffer.length ∧
      ks'.position = (ks.position + 1) % ks.buffer.length ∧
      ks'.remaining_samples = ks.remaining_samples - 1 := by
  simp only [KarplusStrong.nextSampleWith, if_neg h]
  exact ⟨_, _, rfl, ks.buffer.length_set ks.position _, rfl, rfl⟩

/-- C10: a voice built from `f > 0` and `sr > 0` has a non-empty delay line
with its cursor in bounds, and on every such well-formed state `next_sample`
is total: both buffer accesses are in bounds and the modulo divisor is
positive, `next_sample` returns `None` exactly when `remaining_samples == 0`,
and otherwise returns `Some`, decrements `remaining_samples` by exactly one,
and preserves well-formedness. -/
theorem c10_next_sample_total (sin2pi : ℚ → ℚ) (noise : ℕ → ℚ) (f d sr : ℚ)
    (config : GuitarConfig) (hf : 0 < f) (hsr : 0 < sr) :
    (0 < (KarplusStrong.new noise f d sr config).buffer.length ∧
      (KarplusStrong.new noise f d sr config).position <
        (KarplusStrong.new noise f d sr config).buffer.length) ∧
    (∀ v : KarplusStrong, 0 < v.buffer.length → v.position < v.buffer.length →
      (v.position < v.buffer.length ∧
        (v.position + 1) % v.buffer.length < v.buffer.length) ∧
      (v.nextSample sin2pi = none ↔ v.remaining_samples = 0) ∧
      (v.remaining_samples ≠ 0 → ∃ s v', v.nextSample sin2pi = some (s, v') ∧
        v'.remaining_samples + 1 = v.remaining_samples ∧
        0 < v'.buffer.length ∧ v'.position < v'.buffer.length)) := by
  constructor
  · have hlen : (KarplusStrong.new noise f d sr config).buffer.length =
        (⌈sr / f⌉).toNat := seedBuffer_length noise config _ 0 0
    have hpos : (0 : ℚ) < sr / f := div_pos hsr hf
    have hceil : (0 : ℤ) < ⌈sr / f⌉ := Int.ceil_pos.mpr hpos
    have hlenpos : 0 < (KarplusStrong.new noise f d sr config).buffer.length := by
      rw [hlen]; omega
    exact ⟨hlenpos, hlenpos⟩
  · intro v hlen hcur
    refine ⟨⟨hcur, Nat.mod_lt _ hlen⟩, nextSampleWith_none_iff sin2pi v v.config v.sample_rate, ?_⟩
    intro hrem
    obtain ⟨s, v', hsome, hblen, hpos', hrem'⟩ :=
      @nextSampleWith_some_of_remaining sin2pi v v.config v.sample_rate hrem
    refine ⟨s, v', hsome, by omega, by rw [hblen]; exact hlen, ?_⟩
    rw [hpos', hblen]
    exact Nat.mod_lt _ hlen

/-- C10 witness: the theorem at a concrete voice (`f = 2`, `sr = 5`), whose
buffer has 3 entries and cursor 0. -/
theorem c10_next_sample_total_witness :
    0 < (KarplusStrong.new (fun _ => 0) 2 1 5 GuitarConfig.acoustic).buffer.length ∧
    (KarplusStrong.new (fun _ => 0) 2 1 5 GuitarConfig.acoustic).position <
      (KarplusStrong.new (fun _ => 0) 2 1 5 GuitarConfig.acoustic).buffer.length :=
  (c10_next_sample_total (fun _ => 0) (fun _ => 0) 2 1 5 GuitarConfig.acoustic
    (by norm_num) (by norm_num)).1

/-- C2: in every audio-output callback, the `retain_mut` pass sums exactly the
samples of the voices whose `next_sample` returned `Some` and keeps exactly
those voices (every voice returning `None` is removed); every written frame
is the per-channel replication of that sum times the master volume, clamped
to `[-1, 1]`; hence every emitted sample lies in `[-1, 1]` for arbitrary
configs, sample rates and voice states. -/
theorem c2_write_data_mixing (sin2pi : ℚ → ℚ) (configs : GuitarConfig)
    (sample_rate : ℚ) (channels frames : ℕ) (voices : List KarplusStrong) :
    ((retainMix sin2pi configs sample_rate voices).1 =
      (voices.filterMap
        (fun v => (v.nextSampleWith sin2pi configs sample_rate).map Prod.fst)).sum) ∧
    ((retainMix sin2pi configs sample_rate voices).2 =
      voices.filterMap
        (fun v => (v.nextSampleWith sin2pi configs sample_rate).map Prod.snd)) ∧
    (∀ frame ∈ (writeData sin2pi configs sample_rate channels frames voices).1,
      ∃ vs : List KarplusStrong,
        frame = List.replicate channels
          (clampQ ((retainMix sin2pi configs sample_rate vs).1 * configs.volume)
            (-1) 1)) ∧
    (∀ frame ∈ (writeData sin2pi configs sample_rate channels frames voices).1,
      ∀ x ∈ frame, -1 ≤ x ∧ x ≤ 1) := by
  refine ⟨retainMix_fst sin2pi configs sample_rate voices,
    retainMix_snd sin2pi configs sample_rate voices,
    writeData_frames_shape sin2pi configs sample_rate channels frames voices, ?_⟩
  intro frame hf x hx
  obtain ⟨vs, hframe⟩ :=
    writeData_frames_shape sin2pi configs sample_rate channels frames voices frame hf
  rw [hframe] at hx
  have hval := List.eq_of_mem_replicate hx
  rw [hval]
  exact clampQ_mem_Icc _ (-1) 1 (by norm_num)

/-- C2 witness: the theorem at one frame and one channel with an empty voice
pool; the single emitted sample is the clamped silence `0` and lies in
`[-1, 1]`. -/
theorem c2_write_data_mixing_witness :
    [(0 : ℚ)] ∈ (writeData (fun _ => 0) GuitarConfig.acoustic 5 1 1
        ([] : List KarplusStrong)).1 ∧
    -1 ≤ (0 : ℚ) ∧ (0 : ℚ) ≤ 1 := by
  have hmem : [(0 : ℚ)] ∈ (writeData (fun _ => 0) GuitarConfig.acoustic 5 1 1
      ([] : List KarplusStrong)).1 := by
    norm_num [writeData, retainMix, clampQ, GuitarConfig.acoustic]
  exact ⟨hmem,
    (c2_write_data_mixing (fun _ => 0) GuitarConfig.acoustic 5 1 1 []).2.2.2
      [0] hmem 0 (by simp)⟩

/-- C8: with an expected-note set present, a captured frame is skipped — no
match result at all is emitted on the result channel — exactly when the
`rms_energy` of the (per-frame normalized) frame is below
`SILENCE_THRESHOLD`; for every frame at or above the threshold exactly the
`compare_chroma_peaks` verdict is sent. -/
theorem c8_silence_gate (log2q pow2q : ℚ → ℚ) (computeChroma : List ℚ → List ℚ)
    (input_signal : List ℚ) (notes : List Note) :
    (processFrame log2q pow2q computeChroma input_signal (some notes) = none ↔
      rmsEnergy (normalizeSignalPerFrame input_signal) < SILENCE_THRESHOLD) ∧
    (¬ rmsEnergy (normalizeSignalPerFrame input_signal) < SILENCE_THRESHOLD →
      processFrame log2q pow2q computeChroma input_signal (some notes) =
        some (compareChromaPeaks
          (computeChroma (normalizeSignalPerFrame input_signal))
          (generateExpectedChroma log2q pow2q (some notes)))) := by
  unfold processFrame
  constructor
  · split <;> simp_all
  · intro h
    rw [if_neg h]

theorem maxAmplitude_eq_zero {s : List ℚ} (h : ∀ x ∈ s, x = 0) :
    maxAmplitude s = 0 := by
  refine le_antisymm ?_ (maxAmplitude_nonneg s)
  refine foldl_max_le _ 0 (le_refl 0) ?_
  intro y hy
  rcases List.mem_map.mp hy with ⟨x, hx, hxe⟩
  rw [← hxe, h x hx]
  simp

/-- C9: degenerate zero-energy inputs never divide by zero: normalizing the
empty or all-zero signal returns it unchanged, normalizing a signal with a
nonzero maximum amplitude yields a vector of maximum absolute value exactly 1,
and the cosine similarity is 0 whenever either argument is all zero (its
magnitude is zero), for any square root satisfying `sqrt 0 = 0`. -/
theorem c9_degenerate_normalization (sqrtq : ℚ → ℚ) (hsqrt : sqrtq 0 = 0) :
    (normalizeSignalPerFrame [] = []) ∧
    (∀ s : List ℚ, (∀ x ∈ s, x = 0) → normalizeSignalPerFrame s = s) ∧
    (∀ s : List ℚ, maxAmplitude s ≠ 0 →
      maxAmplitude (normalizeSignalPerFrame s) = 1) ∧
    (∀ a b : List ℚ, ((∀ x ∈ a, x = 0) ∨ (∀ x ∈ b, x = 0)) →
      computeCosineSimilarity sqrtq a b = 0) := by
  refine ⟨rfl, ?_, ?_, ?_⟩
  · intro s hs
    have h0 : maxAmplitude s = 0 := maxAmplitude_eq_zero hs
    unfold normalizeSignalPerFrame
    rw [if_pos h0]
    exact (List.eq_replicate_of_mem hs).symm
  · intro s hM
    have hMpos : 0 < maxAmplitude s :=
      lt_of_le_of_ne (maxAmplitude_nonneg s) (Ne.symm hM)
    unfold normalizeSignalPerFrame
    rw [if_neg hM]
    obtain ⟨x0, hx0, hx0e⟩ := maxAmplitude_attained hM
    refine le_antisymm ?_ ?_
    · refine foldl_max_le _ 0 (by norm_num) ?_
      intro y hy
      rcases List.mem_map.mp hy with ⟨z, hz, hze⟩
      rcases List.mem_map.mp hz with ⟨x, hx, hxe⟩
      rw [← hze, ← hxe, abs_div, abs_of_pos hMpos]
      exact div_le_one_of_le₀ (abs_le_maxAmplitude hx) (le_of_lt hMpos)
    · have hmem : |x0 / maxAmplitude s| ∈
          ((s.map (fun x => x / maxAmplitude s)).map (fun x => |x|)) :=
        List.mem_map_of_mem _ (List.mem_map_of_mem _ hx0)
      have h1 : |x0 / maxAmplitude s| = 1 := by
        rw [abs_div, abs_of_pos hMpos, hx0e, div_self hM]
      exact h1 ▸ mem_le_foldl_max hmem 0
  · intro a b hab
    unfold computeCosineSimilarity
    rcases hab with h | h
    · have hz : ((a.map (fun x => x * x)).sum) = 0 := by
        refine List.sum_eq_zero ?_
        intro y hy
        rcases List.mem_map.mp hy with ⟨x, hx, hxe⟩
        rw [← hxe, h x hx, mul_zero]
      rw [hz, hsqrt]
      rw [if_neg (by simp)]
    · have hz : ((b.map (fun y => y * y)).sum) = 0 := by
        refine List.sum_eq_zero ?_
        intro y hy
        rcases List.mem_map.mp hy with ⟨x, hx, hxe⟩
        rw [← hxe, h x hx, mul_zero]
      rw [hz, hsqrt]
      rw [if_neg (by simp)]

/-- C9 witness: the theorem at the constant-zero square root; the empty frame
and the all-zero pair behave as stated. -/
theorem c9_degenerate_normalization_witness :
    normalizeSignalPerFrame [] = [] ∧
    computeCosineSimilarity (fun _ => 0) [0, 0] [1, 2] = 0 :=
  ⟨(c9_degenerate_normalization (fun _ => 0) rfl).1,
    (c9_degenerate_normalization (fun _ => 0) rfl).2.2.2 [0, 0] [1, 2]
      (Or.inl (by intro x hx; simpa using hx))⟩

theorem enum_mem_facts {c : List ℚ} {i : ℕ} {v : ℚ} (h : (i, v) ∈ c.enum) :
    i < c.length ∧ v = c.getD i 0 := by
  have hg := List.mem_enum_iff_getElem?.mp h
  have hlen : i < c.length := by
    by_contra hnot
    rw [List.getElem?_eq_none (le_of_not_lt hnot)] at hg
    exact Option.noConfusion hg
  refine ⟨hlen, ?_⟩
  rw [List.getD_eq_getElem?_getD, hg]
  rfl

theorem getD_mem_enum {c : List ℚ} {i : ℕ} (h : i < c.length) :
    (i, c.getD i 0) ∈ c.enum := by
  rw [List.mem_enum_iff_getElem?]
  rw [List.getD_eq_getElem?_getD, List.getElem?_eq_getElem h]
  rfl

theorem mem_identifyPeaksExpected (c : List ℚ) (i : ℕ) :
    i ∈ identifyPeaksExpected c ↔ i < c.length ∧ 0 < c.getD i 0 := by
  unfold identifyPeaksExpected
  rw [List.mem_toFinset, List.mem_filterMap]
  constructor
  · rintro ⟨⟨j, v⟩, hmem, hf⟩
    by_cases hv : v > 0
    · simp only [hv, if_pos] at hf
      have hj : j = i := by simpa using hf
      subst hj
      obtain ⟨hlen, hveq⟩ := enum_mem_facts hmem
      exact ⟨hlen, hveq ▸ hv⟩
    · simp [hv] at hf
  · rintro ⟨hlen, hpos⟩
    refine ⟨(i, c.getD i 0), getD_mem_enum hlen, ?_⟩
    rw [if_pos hpos]

theorem mem_identifyPeaksInput {c : List ℚ} {k i : ℕ}
    (h : i ∈ identifyPeaksInput c k) :
    ∃ v : ℚ, (i, v) ∈ (c.enum.mergeSort (fun a b => decide (b.2 ≤ a.2))).take k := by
  unfold identifyPeaksInput at h
  rw [List.mem_toFinset, List.mem_map] at h
  obtain ⟨p, hp, hpe⟩ := h
  refine ⟨p.2, ?_⟩
  have hpi : (i, p.2) = p := by
    rcases p with ⟨a, b⟩
    simp only at hpe
    rw [hpe]
  rwa [hpi]

theorem identifyPeaksInput_topK (c : List ℚ) (k : ℕ) :
    ∀ i ∈ identifyPeaksInput c k, ∀ j, j < c.length →
      j ∉ identifyPeaksInput c k → c.getD j 0 ≤ c.getD i 0 := by
  intro i hi j hj hnj
  classical
  set le := fun a b : ℕ × ℚ => decide (b.2 ≤ a.2) with hle
  set sorted := c.enum.mergeSort le with hsorted
  have hperm : sorted.Perm c.enum := List.mergeSort_perm c.enum le
  have htrans : ∀ a b d : ℕ × ℚ, le a b = true → le b d = true → le a d = true := by
    intro a b d h1 h2
    simp only [hle, decide_eq_true_eq] at h1 h2 ⊢
    exact le_trans h2 h1
  have htotal : ∀ a b : ℕ × ℚ, (le a b || le b a) = true := by
    intro a b
    simp only [hle, Bool.or_eq_true, decide_eq_true_eq]
    exact le_total b.2 a.2
  have hpair : List.Pairwise (fun a b => le a b = true) sorted :=
    List.sorted_mergeSort htrans htotal c.enum
  -- i has a witness in the taken part
  obtain ⟨vi, hvi⟩ := mem_identifyPeaksInput hi
  -- (j, c.getD j 0) lies in sorted and not in its taken part
  have hjmem : (j, c.getD j 0) ∈ sorted := hperm.symm.subset (getD_mem_enum hj)
  have hjdrop : (j, c.getD j 0) ∈ sorted.drop k := by
    rcases (List.mem_append.mp
      (by rw [List.take_append_drop]; exact hjmem :
        (j, c.getD j 0) ∈ sorted.take k ++ sorted.drop k)) with hin | hin
    · exfalso
      apply hnj
      unfold identifyPeaksInput
      rw [List.mem_toFinset, List.mem_map]
      exact ⟨(j, c.getD j 0), hin, rfl⟩
    · exact hin
  -- pairwise across the take/drop split
  have hsplit := (List.pairwise_append.mp
    (by rw [List.take_append_drop]; exact hpair :
      List.Pairwise (fun a b => le a b = true) (sorted.take k ++ sorted.drop k)))
  have hled : le (i, vi) (j, c.getD j 0) = true :=
    hsplit.2.2 (i, vi) hvi (j, c.getD j 0) hjdrop
  have hvle : c.getD j 0 ≤ vi := by
    simpa [hle] using hled
  -- vi is the value at index i
  have hvi_enum : (i, vi) ∈ c.enum :=
    hperm.subset (List.mem_of_mem_take hvi)
  obtain ⟨hilen, hvieq⟩ := enum_mem_facts hvi_enum
  rw [← hvieq]
  exact hvle

/-- C3: the peak-set match `compare_chroma_peaks(input, expected)` is true iff
every index of `expected` with positive energy appears among the top-K indices
of `input` by descending energy, `K` being the number of positive-energy
indices of `expected`; it is vacuously true when `expected` is all zero; and
`identify_peaks_input` indeed returns top-K indices: the energy at any
non-selected index never exceeds the energy at a selected one. -/
theorem c3_peak_set_match (input expected : List ℚ) :
    (compareChromaPeaks input expected = true ↔
      ∀ i, i < expected.length → 0 < expected.getD i 0 →
        i ∈ identifyPeaksInput input (identifyPeaksExpected expected).card) ∧
    ((∀ x ∈ expected, x ≤ 0) → compareChromaPeaks input expected = true) ∧
    (∀ i ∈ identifyPeaksInput input (identifyPeaksExpected expected).card,
      ∀ j, j < input.length →
        j ∉ identifyPeaksInput input (identifyPeaksExpected expected).card →
        input.getD j 0 ≤ input.getD i 0) := by
  have hiff : compareChromaPeaks input expected = true ↔
      ∀ i, i < expected.length → 0 < expected.getD i 0 →
        i ∈ identifyPeaksInput input (identifyPeaksExpected expected).card := by
    unfold compareChromaPeaks
    rw [decide_eq_true_eq]
    constructor
    · intro hsub i hlen hpos
      exact hsub ((mem_identifyPeaksExpected expected i).mpr ⟨hlen, hpos⟩)
    · intro h i hi
      obtain ⟨hlen, hpos⟩ := (mem_identifyPeaksExpected expected i).mp hi
      exact h i hlen hpos
  refine ⟨hiff, ?_, identifyPeaksInput_topK input _⟩
  intro hall
  rw [hiff]
  intro i hlen hpos
  exfalso
  have hmem : expected.getD i 0 ∈ expected := by
    rw [List.getD_eq_getElem _ _ hlen]
    exact List.getElem_mem hlen
  linarith [hall _ hmem]

theorem sum_set_getD_add (l : List ℚ) (i : ℕ) (x : ℚ) (h : i < l.length) :
    (l.set i (l.getD i 0 + x)).sum = l.sum + x := by
  induction l generalizing i with
  | nil => simp at h
  | cons a as ih =>
    cases i with
    | zero =>
      simp only [List.set, List.getD_cons_zero, List.sum_cons]
      ring
    | succ n =>
      simp only [List.set, List.getD_cons_succ, List.sum_cons]
      rw [ih n (by simpa using h)]
      ring

/-- A note carrying both a string and a fret, the `if let (Some(_), Some(_))`
test of `generate_expected_chroma`. -/
def frettedP (n : Note) : Bool := n.string.isSome && n.fret.isSome

theorem accumulateChroma_sum (log2q pow2q : ℚ → ℚ) :
    ∀ (notes : List Note) (chroma : List ℚ), chroma.length = 12 →
      (accumulateChroma log2q pow2q notes chroma).sum =
        chroma.sum + (notes.countP frettedP : ℚ) := by
  intro notes
  induction notes with
  | nil => intro chroma _; simp [accumulateChroma]
  | cons note rest ih =>
    intro chroma hlen
    unfold accumulateChroma
    rcases hs : note.string with _ | s <;> rcases hf : note.fret with _ | f
    · rw [ih chroma hlen, List.countP_cons]
      simp [frettedP, hs, hf]
    · rw [ih chroma hlen, List.countP_cons]
      simp [frettedP, hs, hf]
    · rw [ih chroma hlen, List.countP_cons]
      simp [frettedP, hs, hf]
    · have hpc : (freqToMidi log2q (calculateFrequency pow2q note (51/2) 0)) % 12 <
          chroma.length := by
        rw [hlen]
        exact Nat.mod_lt _ (by norm_num)
      rw [ih _ (by rw [List.length_set]; exact hlen)]
      rw [sum_set_getD_add chroma _ 1 hpc, List.countP_cons]
      simp [frettedP, hs, hf]
      ring

theorem sum_map_div (l : List ℚ) (s : ℚ) :
    (l.map (fun c => c / s)).sum = l.sum / s := by
  induction l with
  | nil => simp
  | cons a as ih => simp [ih, add_div]

/-- C6: the expected-chroma generator returns the 12-bin zero vector on an
empty (or absent) note set; on a note set with at least one fretted note it is
L1-normalized (the entries sum to 1), for any `log2`/`2^x` primitives; and for
the single open high-E note in standard tuning with no capo — assuming only
that the `2^x` primitive is exact at 0 and the `log2` primitive is accurate
enough at `329.63/440` for the rounding to land on MIDI 64 — the whole energy
sits in pitch-class bin 4 (E). -/
theorem c6_expected_chroma (log2q pow2q : ℚ → ℚ)
    (hpow : pow2q 0 = 1)
    (hlog_lo : -11/24 ≤ log2q (32963/44000))
    (hlog_hi : log2q (32963/44000) < -3/8) :
    generateExpectedChroma log2q pow2q (some []) = List.replicate 12 0 ∧
    generateExpectedChroma log2q pow2q none = List.replicate 12 0 ∧
    (∀ notes : List Note, 0 < notes.countP frettedP →
      (generateExpectedChroma log2q pow2q (some notes)).sum = 1) ∧
    generateExpectedChroma log2q pow2q (some [noteE]) =
      [0, 0, 0, 0, 1, 0, 0, 0, 0, 0, 0, 0] := by
  have hfreq : calculateFrequency pow2q noteE (51/2) 0 = 32963/100 := by
    unfold calculateFrequency
    norm_num [noteE, openStringFrequency, hpow]
  have hmidi : freqToMidi log2q (32963/100) = 64 := by
    unfold freqToMidi
    have harg : (32963/100 : ℚ)/440 = 32963/44000 := by norm_num
    rw [harg]
    have hround : round (69 + 12 * log2q (32963/44000)) = 64 := by
      rw [round_eq]
      rw [Int.floor_eq_iff]
      constructor
      · push_cast
        linarith
      · push_cast
        linarith
    rw [hround]
    rfl
  refine ⟨?_, ?_, ?_, ?_⟩
  · show (if (accumulateChroma log2q pow2q [] (List.replicate CHROMA_BINS 0)).sum > 0
        then _ else accumulateChroma log2q pow2q [] (List.replicate CHROMA_BINS 0)) =
      List.replicate 12 0
    norm_num [accumulateChroma, CHROMA_BINS]
  · show (if (List.replicate CHROMA_BINS (0:ℚ)).sum > 0
        then _ else List.replicate CHROMA_BINS (0:ℚ)) = List.replicate 12 0
    norm_num [CHROMA_BINS]
  · intro notes hcount
    have hsum : (accumulateChroma log2q pow2q notes (List.replicate CHROMA_BINS 0)).sum
        = ((notes.countP frettedP : ℕ) : ℚ) := by
      rw [accumulateChroma_sum log2q pow2q notes _ (by simp [CHROMA_BINS])]
      simp
    have hpos : (0:ℚ) < ((notes.countP frettedP : ℕ) : ℚ) := by exact_mod_cast hcount
    show (if (accumulateChroma log2q pow2q notes (List.replicate CHROMA_BINS 0)).sum > 0
        then (accumulateChroma log2q pow2q notes (List.replicate CHROMA_BINS 0)).map
          (fun c => c / (accumulateChroma log2q pow2q notes (List.replicate CHROMA_BINS 0)).sum)
        else accumulateChroma log2q pow2q notes (List.replicate CHROMA_BINS 0)).sum = 1
    rw [hsum, if_pos hpos, sum_map_div, hsum, div_self (ne_of_gt hpos)]
  · have hchroma : accumulateChroma log2q pow2q [noteE] (List.replicate CHROMA_BINS 0) =
        [0, 0, 0, 0, 1, 0, 0, 0, 0, 0, 0, 0] := by
      show accumulateChroma log2q pow2q [] ((List.replicate CHROMA_BINS 0).set
          ((freqToMidi log2q (calculateFrequency pow2q noteE (51/2) 0)) % 12)
          ((List.replicate CHROMA_BINS 0).getD
            ((freqToMidi log2q (calculateFrequency pow2q noteE (51/2) 0)) % 12) 0 + 1)) =
        [0, 0, 0, 0, 1, 0, 0, 0, 0, 0, 0, 0]
      rw [hfreq, hmidi]
      show (List.replicate CHROMA_BINS (0:ℚ)).set 4
          ((List.replicate CHROMA_BINS (0:ℚ)).getD 4 0 + 1) = _
      norm_num [CHROMA_BINS]
      rfl
    show (if (accumulateChroma log2q pow2q [noteE] (List.replicate CHROMA_BINS 0)).sum > 0
        then (accumulateChroma log2q pow2q [noteE] (List.replicate CHROMA_BINS 0)).map
          (fun c => c / (accumulateChroma log2q pow2q [noteE] (List.replicate CHROMA_BINS 0)).sum)
        else accumulateChroma log2q pow2q [noteE] (List.replicate CHROMA_BINS 0)) =
      [0, 0, 0, 0, 1, 0, 0, 0, 0, 0, 0, 0]
    rw [hchroma]
    norm_num

/-- C6 witness: the theorem at `log2 := -5/12` (the true value of
`log2(329.63/440)` is ≈ -0.4167, inside the demanded window) and an exact
`2^0 = 1`: the open high-E note lands entirely in chroma bin 4. -/
theorem c6_expected_chroma_witness :
    generateExpectedChroma (fun _ => -5/12) (fun _ => 1) (some [noteE]) =
      [0, 0, 0, 0, 1, 0, 0, 0, 0, 0, 0, 0] :=
  (c6_expected_chroma (fun _ => -5/12) (fun _ => 1) rfl
    (by norm_num) (by norm_num)).2.2.2
